import Mathlib

/-!
# letterweek-server: word ingestion (`POST /submit`) and reconciliation (`POST /filledwords`)

A shallow embedding of `src/main.go`.  The two handlers are pure functions over an
explicit model of the `words` table.  The table's constraints are read off the
struct tags of `Word` (`main.go:13-19`): `id` is the primary key, `main_word` is
`unique` and `not null`.  The GORM calls are modelled by the SQL statement each one
issues; every handler ignores the error a statement returns, so a failing statement
is a statement that leaves the table unchanged, and a failing scan of a fetched row
leaves `foundWord` partly filled (`scanRow`).
-/

namespace LetterWeek

/-! ## Data model (`main.go:13-30`, `main.go:66-70`) -/

/-- The `Word` struct, `main.go:13-19`.  `*string` fields are optional strings (`none`
is the nil pointer / SQL NULL).  A `uint` field is a natural number (a Go `uint` is
below `2 ^ 64`).  The table holds such a number as a signed 64-bit integer: writing
it and comparing it go through a one-to-one wrap, so a row of the model carries the
number that was written, but a number from `2 ^ 63` on cannot be read back into a
`uint` field (see `scanRow`). -/
structure Word where
  ID : Nat
  MainWord : Option String
  BaseLanguageID : Nat
  TranslateWord : Option String
  LearningLanguageID : Nat
deriving DecidableEq, Repr

/-- The Go zero value of `Word` (`var foundWord Word`, `main.go:102`). -/
def Word.zero : Word :=
  { ID := 0, MainWord := none, BaseLanguageID := 0, TranslateWord := none,
    LearningLanguageID := 0 }

/-- The `RequestPayload` struct, `main.go:27-30`. -/
structure RequestPayload where
  WordsList : List Word
  DeletedWords : List Word
deriving DecidableEq, Repr

/-- The `Request` struct local to the `/submit` handler, `main.go:66-70`.  Its two
language ids are `uint`s as in `Word`: any number below `2 ^ 64` can be received. -/
structure Request where
  Text : String
  BaseLanguageID : Nat
  LearningLanguageID : Nat
deriving DecidableEq, Repr

/-- What a handler sends back: the 400 answer of a failed `BodyParser`
(`main.go:74`, `main.go:122`), the two lists of `/submit` (`main.go:112-115`), or the
acknowledgment of `/filledwords` (`main.go:138`). -/
inductive Response where
  | badRequest : Response
  | partition (wordswithtranslate wordswithouttranslate : List Word) : Response
  | success : Response
deriving DecidableEq, Repr

/-! ## The `words` table -/

/-- The `words` table behind the handle `db`: its rows, and the counter SQLite keeps
for an `integer PRIMARY KEY AUTOINCREMENT` column (the largest row id ever handed
out).  Row ids are unbounded naturals here. -/
structure DB where
  words : List Word
  seq : Nat
deriving DecidableEq, Repr

/-- The largest `id` among the rows (0 for an empty table). -/
def maxID (rows : List Word) : Nat :=
  rows.foldl (fun m w => max m w.ID) 0

/-- The rows selected by `WHERE main_word = ? AND base_language_id = ?`
(`main.go:89`, `main.go:103`).  SQLite compares text byte for byte. -/
def DB.whereWord (db : DB) (word : String) (base : Nat) : List Word :=
  db.words.filter (fun w => decide (w.MainWord = some word ∧ w.BaseLanguageID = base))

/-- The statement `db.Model(&Word{}).Where(...).Count(&count)`, `main.go:89`. -/
def DB.Count (db : DB) (word : String) (base : Nat) : Nat :=
  (db.whereWord word base).length

/-- The row with the least `id` in a list of rows, if there is one
(`ORDER BY id LIMIT 1`). -/
def leastID : List Word → Option Word
  | [] => none
  | w :: rest =>
    match leastID rest with
    | none => some w
    | some v => if w.ID ≤ v.ID then some w else some v

/-- The bound from which a stored integer no longer reads back into a `uint` field:
the table holds it as the negative 64-bit integer it wrapped to. -/
def scanBound : Nat := 2 ^ 63

/-- Scanning a selected row into `foundWord` (inside `First`, `main.go:103`).  The
columns are read in the order `id, main_word, base_language_id, translate_word,
learning_language_id`, and the scan stops at the first column that does not fit its
field; the handler ignores the error.  Columns read before the stop are in
`foundWord`, the column that failed gives 0, and the columns after it were never
read: their fields get whatever the scan buffers held before, `stale` (zero values
when the buffers are fresh).  Row ids are SQLite row ids and always fit. -/
def scanRow (stale row : Word) : Word :=
  if row.BaseLanguageID < scanBound then
    if row.LearningLanguageID < scanBound then row
    else { row with LearningLanguageID := 0 }
  else
    { ID := row.ID, MainWord := row.MainWord, BaseLanguageID := 0,
      TranslateWord := stale.TranslateWord, LearningLanguageID := stale.LearningLanguageID }

/-- The statement `db.Where(...).First(&foundWord)`, `main.go:103`: the matching row
with the least primary key is scanned into `foundWord` (`scanRow`, with `stale` the
content of the scan buffers); when no row matches the query reports "record not
found", which the handler ignores, and `foundWord` keeps its zero value. -/
def DB.First (db : DB) (stale : Word) (word : String) (base : Nat) : Word :=
  match leastID (db.whereWord word base) with
  | some w => scanRow stale w
  | none => Word.zero

/-- The statement `db.Create(&Word{...})`, `main.go:92`: an `INSERT` into `words`.
It is rejected, leaving the table as it was, when `main_word` is NULL (`not null`),
when a row with the same `main_word` exists (`unique`, on that column alone), or
when an explicit non-zero `id` is already taken.  A zero `ID` makes SQLite assign
the next row id, one more than every row id it has handed out so far. -/
def DB.Create (db : DB) (w : Word) : DB :=
  if w.MainWord = none then db
  else if db.words.any (fun r => decide (r.MainWord = w.MainWord)) then db
  else if w.ID = 0 then
    let id := max (maxID db.words) db.seq + 1
    { words := db.words ++ [{ w with ID := id }], seq := id }
  else if db.words.any (fun r => decide (r.ID = w.ID)) then db
  else { words := db.words ++ [w], seq := max db.seq w.ID }

/-- The statement `db.Delete(&Word{}, id)`, `main.go:127`:
`DELETE FROM words WHERE id = ?`.  Deleting no row is not an error. -/
def DB.Delete (db : DB) (id : Nat) : DB :=
  { db with words := db.words.filter (fun w => decide (w.ID ≠ id)) }

/-- What `Updates(Word{TranslateWord: ..., LearningLanguageID: ...})` does to one
selected row (`main.go:132-135`).  Called with a struct, GORM's `Updates` assigns
only the fields of the struct that are not their zero value: `translate_word` is
assigned when the pointer is not nil, `learning_language_id` when the number is not
0.  The struct literal sets no other field. -/
def assignNonZero (v row : Word) : Word :=
  { row with
    TranslateWord := if v.TranslateWord.isSome then v.TranslateWord else row.TranslateWord
    LearningLanguageID :=
      if v.LearningLanguageID ≠ 0 then v.LearningLanguageID else row.LearningLanguageID }

/-- The statement `db.Model(&Word{}).Where("id = ?", id).Updates(Word{...})`,
`main.go:132-135`: every row with that `id` gets the non-zero fields of the struct.
Matching no row is not an error. -/
def DB.Updates (db : DB) (id : Nat) (v : Word) : DB :=
  { db with words := db.words.map (fun row => if row.ID = id then assignNonZero v row else row) }

/-! ## Tokenisation (`main.go:77-84`) -/

/-- Go's `unicode.IsSpace`: the Latin-1 spaces `\t \n \v \f \r`, space, U+0085, U+00A0,
and the other code points with the Unicode White_Space property. -/
def isSpace (r : Char) : Bool :=
  let n := r.toNat
  (9 ≤ n && n ≤ 13) || n == 0x20 || n == 0x85 || n == 0xA0 || n == 0x1680 ||
  (0x2000 ≤ n && n ≤ 0x200a) || n == 0x2028 || n == 0x2029 || n == 0x202f ||
  n == 0x205f || n == 0x3000

/-- The scanning loop of Go's `strings.Fields`: `cur` holds the runes of the field
that is open (empty when none is), `spans` the fields closed so far.  A white space
rune closes the open field, any other rune opens or extends it, and a field still
open at the end of the input is closed there. -/
def fieldsLoop : List Char → List Char → List String → List String
  | [], cur, spans => if cur.isEmpty then spans else spans ++ [String.mk cur]
  | r :: rest, cur, spans =>
    if isSpace r then
      if cur.isEmpty then fieldsLoop rest [] spans
      else fieldsLoop rest [] (spans ++ [String.mk cur])
    else fieldsLoop rest (cur ++ [r]) spans

/-- The call `strings.Fields(req.Text)`, `main.go:78`.  The text is taken as its
sequence of Unicode code points. -/
def Fields (s : String) : List String :=
  fieldsLoop s.data [] []

/-- The loop `for _, word := range words { uniqueWords[word] = true }`,
`main.go:81-84`: the keys of the map, each listed once (in order of first
insertion; Go iterates them in an order of its own, see `RangeOrder`). -/
def uniqueWords (words : List String) : List String :=
  words.foldl (fun keys word => if word ∈ keys then keys else keys ++ [word]) []

/-- A Go map iteration order: `for word := range uniqueWords` visits every key of
the map exactly once, in an order the language leaves unspecified. -/
structure RangeOrder where
  order : List String → List String
  perm : ∀ keys, (order keys).Perm keys

/-- The iteration order that visits the keys in order of first insertion. -/
def RangeOrder.inserted : RangeOrder :=
  { order := fun keys => keys, perm := fun _ => List.Perm.refl _ }

/-- The iteration order that visits the keys in reverse order of insertion. -/
def RangeOrder.reversed : RangeOrder :=
  { order := fun keys => keys.reverse, perm := fun keys => List.reverse_perm keys }

/-! ## `POST /submit` (`main.go:65-116`) -/

/-- One turn of the loop at `main.go:87-94`: count the rows with this text and base
language, and create a Word when there is none. -/
def saveWord (req : Request) (db : DB) (word : String) : DB :=
  if db.Count word req.BaseLanguageID = 0 then
    db.Create { ID := 0, MainWord := some word, BaseLanguageID := req.BaseLanguageID,
                TranslateWord := none, LearningLanguageID := req.LearningLanguageID }
  else db

/-- One turn of the loop at `main.go:101-109`: fetch the Word of this token and
append it to `wordsWithTranslate` or to `wordsWithoutTranslate`.  `pool word` is
what the scan buffers hold when this token is fetched. -/
def classifyWord (req : Request) (db : DB) (pool : String → Word)
    (lists : List Word × List Word) (word : String) : List Word × List Word :=
  let foundWord := db.First (pool word) word req.BaseLanguageID
  if foundWord.TranslateWord ≠ none then (lists.1 ++ [foundWord], lists.2)
  else (lists.1, lists.2 ++ [foundWord])

/-- The `/submit` handler, `main.go:65-116`.  `body` is what `BodyParser` produced
(`none` when it failed); `r₁` and `r₂` are the iteration orders of the two loops
over the map; `pool` gives, for each token, the content of the scan buffers when
its Word is fetched. -/
def submit (db : DB) (body : Option Request) (r₁ r₂ : RangeOrder) (pool : String → Word) :
    DB × Response :=
  match body with
  | none => (db, Response.badRequest)
  | some req =>
    let words := Fields req.Text
    let keys := uniqueWords words
    let db₁ := (r₁.order keys).foldl (saveWord req) db
    let lists := (r₂.order keys).foldl (classifyWord req db₁ pool) ([], [])
    (db₁, Response.partition lists.1 lists.2)

/-! ## `POST /filledwords` (`main.go:119-139`) -/

/-- The `/filledwords` handler, `main.go:119-139`: the deletion loop, then the
update loop, then the acknowledgment. -/
def filledwords (db : DB) (body : Option RequestPayload) : DB × Response :=
  match body with
  | none => (db, Response.badRequest)
  | some payload =>
    let db₁ := payload.DeletedWords.foldl (fun d word => d.Delete word.ID) db
    let db₂ := payload.WordsList.foldl
      (fun d word => d.Updates word.ID
        { Word.zero with TranslateWord := word.TranslateWord,
                         LearningLanguageID := word.LearningLanguageID }) db₁
    (db₂, Response.success)

/-- Scan buffers that are fresh for every token: nothing stale in them. -/
def freshPool : String → Word :=
  fun _ => Word.zero

/-! ## Readers of a response -/

/-- The `wordswithtranslate` list of a response (empty for the other answers). -/
def Response.translated : Response → List Word
  | Response.partition t _ => t
  | _ => []

/-- The `wordswithouttranslate` list of a response (empty for the other answers). -/
def Response.untranslated : Response → List Word
  | Response.partition _ u => u
  | _ => []

/-- The stored Words with a given text and source language. -/
def DB.stored (db : DB) (text : String) (base : Nat) : List Word :=
  db.whereWord text base

/-! ## Auxiliary definitions used in the statements -/

/-- The struct literal handed to `Updates` for one entry of `WordsList`
(`main.go:132-135`). -/
def updateOf (word : Word) : Word :=
  { Word.zero with TranslateWord := word.TranslateWord,
                   LearningLanguageID := word.LearningLanguageID }

/-- What the whole update loop (`main.go:131-136`) does to one row. -/
def applyUpdates (ups : List Word) (row : Word) : Word :=
  ups.foldl (fun r word => if r.ID = word.ID then assignNonZero (updateOf word) r else r) row

/-- Follows the spec's words ("a token is exactly the substring between whitespace
runs"): `t` is a maximal non-empty substring of `s` without white space, that is,
`s` is `pre ++ t ++ post` where `t` is not empty and holds no white space, the
character just before `t` (if there is one) is white space, and so is the character
just after `t` (if there is one). -/
def IsMaximalToken (s t : String) : Prop :=
  t.data ≠ [] ∧ (∀ c ∈ t.data, isSpace c = false) ∧
  ∃ pre post : List Char, s.data = pre ++ t.data ++ post ∧
    (∀ p c, pre = p ++ [c] → isSpace c = true) ∧
    (∀ c q, post = c :: q → isSpace c = true)

/-- No two stored Words share the pair (text, source language). -/
def PairUnique (db : DB) : Prop :=
  db.words.Pairwise
    (fun a b => ¬ (a.MainWord = b.MainWord ∧ a.BaseLanguageID = b.BaseLanguageID))

/-! ## Tokenisation -/

/-- The maximal tokens of a list of characters (`IsMaximalToken` on lists). -/
theorem isMaximalToken_iff (s t : String) :
    IsMaximalToken s t ↔
      (t.data ≠ [] ∧ (∀ c ∈ t.data, isSpace c = false) ∧
        ∃ pre post : List Char, s.data = pre ++ t.data ++ post ∧
          (∀ p c, pre = p ++ [c] → isSpace c = true) ∧
          (∀ c q, post = c :: q → isSpace c = true)) := Iff.rfl

/-- In a text without white space the only maximal token is the text itself. -/
theorem token_of_no_space (w t : List Char) (hw : ∀ c ∈ w, isSpace c = false) :
    (t ≠ [] ∧ (∀ c ∈ t, isSpace c = false) ∧
      ∃ pre post : List Char, w = pre ++ t ++ post ∧
        (∀ p c, pre = p ++ [c] → isSpace c = true) ∧
        (∀ c q, post = c :: q → isSpace c = true))
    ↔ (w ≠ [] ∧ t = w) := by
  constructor
  · rintro ⟨hne, _, pre, post, heq, hL, hR⟩
    have hpre : pre = [] := by
      rcases List.eq_nil_or_concat pre with h | ⟨p, c, h⟩
      · exact h
      · have hsp := hL p c (by rw [h]; simp)
        have hmem : c ∈ w := by rw [heq, h]; simp
        rw [hw c hmem] at hsp
        cases hsp
    have hpost : post = [] := by
      cases post with
      | nil => rfl
      | cons c q =>
        have hsp := hR c q rfl
        have hmem : c ∈ w := by rw [heq]; simp
        rw [hw c hmem] at hsp
        cases hsp
    subst hpre hpost
    simp only [List.nil_append, List.append_nil] at heq
    subst heq
    exact ⟨hne, rfl⟩
  · rintro ⟨hne, rfl⟩
    refine ⟨hne, hw, [], [], by simp, ?_, ?_⟩
    · intro p c h
      simp at h
    · intro c q h
      cases h

/-- The maximal tokens of `w ++ r :: rest`, where `w` holds no white space and `r` is
white space, are `w` (when it is not empty) and the maximal tokens of `rest`. -/
theorem token_split_space (w rest t : List Char) (r : Char)
    (hw : ∀ c ∈ w, isSpace c = false) (hr : isSpace r = true) :
    (t ≠ [] ∧ (∀ c ∈ t, isSpace c = false) ∧
      ∃ pre post : List Char, w ++ r :: rest = pre ++ t ++ post ∧
        (∀ p c, pre = p ++ [c] → isSpace c = true) ∧
        (∀ c q, post = c :: q → isSpace c = true))
    ↔ ((w ≠ [] ∧ t = w) ∨
       (t ≠ [] ∧ (∀ c ∈ t, isSpace c = false) ∧
        ∃ pre post : List Char, rest = pre ++ t ++ post ∧
          (∀ p c, pre = p ++ [c] → isSpace c = true) ∧
          (∀ c q, post = c :: q → isSpace c = true))) := by
  have hrt : ∀ u : List Char, (∀ c ∈ u, isSpace c = false) → r ∉ u := by
    intro u hu hmem
    rw [hu r hmem] at hr
    cases hr
  constructor
  · rintro ⟨hne, ht, pre, post, heq, hL, hR⟩
    rw [List.append_assoc, List.append_eq_append_iff] at heq
    rcases heq with ⟨a, hpre, hrest⟩ | ⟨c, hwc, htp⟩
    · -- the token starts after `w`
      cases a with
      | nil =>
        exfalso
        simp only [List.nil_append] at hrest
        cases t with
        | nil => exact hne rfl
        | cons x t' =>
          simp only [List.cons_append, List.cons.injEq] at hrest
          exact hrt (x :: t') ht (by rw [← hrest.1]; exact List.mem_cons_self _ _)
      | cons x a' =>
        right
        simp only [List.cons_append, List.cons.injEq] at hrest
        refine ⟨hne, ht, a', post, by rw [hrest.2, List.append_assoc], ?_, hR⟩
        intro p c hp
        apply hL (w ++ x :: p) c
        rw [hpre, hp]
        simp
    · -- the token starts inside `w`, hence at its start
      have hpre : pre = [] := by
        rcases List.eq_nil_or_concat pre with h | ⟨p, x, h⟩
        · exact h
        · have hsp := hL p x (by rw [h]; simp)
          have hmem : x ∈ w := by rw [hwc, h]; simp
          rw [hw x hmem] at hsp
          cases hsp
      subst hpre
      simp only [List.nil_append] at hwc
      subst hwc
      left
      rw [List.append_eq_append_iff] at htp
      rcases htp with ⟨a, hwa, hpost⟩ | ⟨a, hta, hra⟩
      · -- `w = t ++ a`: the token stops inside `w`, hence at its end
        cases a with
        | nil =>
          simp only [List.append_nil] at hwa
          subst hwa
          exact ⟨hne, rfl⟩
        | cons x a' =>
          exfalso
          have hsp := hR x (a' ++ r :: rest) (by rw [hpost]; simp)
          have hmem : x ∈ w := by rw [hwa]; simp
          rw [hw x hmem] at hsp
          cases hsp
      · -- `t = w ++ a`: the token cannot run over the white space `r`
        cases a with
        | nil =>
          simp only [List.append_nil] at hta
          subst hta
          exact ⟨hne, rfl⟩
        | cons x a' =>
          exfalso
          simp only [List.cons_append, List.cons.injEq] at hra
          exact hrt t ht (by rw [hta, ← hra.1]; simp)
  · rintro (⟨hne, rfl⟩ | ⟨hne, ht, pre, post, heq, hL, hR⟩)
    · refine ⟨hne, hw, [], r :: rest, by simp, ?_, ?_⟩
      · intro p c h
        simp at h
      · intro c q h
        simp only [List.cons.injEq] at h
        rw [← h.1]
        exact hr
    · refine ⟨hne, ht, w ++ r :: pre, post, by rw [heq]; simp, ?_, hR⟩
      intro p c hp
      rcases List.eq_nil_or_concat' pre with h | ⟨p', x, h⟩
      · subst h
        have h2 : (w ++ [r]) = p ++ [c] := by rw [← hp]
        have h3 := List.append_inj_right' h2 rfl
        simp only [List.cons.injEq, and_true] at h3
        rw [← h3]
        exact hr
      · subst h
        have h2 : (w ++ r :: p') ++ [x] = p ++ [c] := by rw [← hp]; simp
        have h3 := List.append_inj_right' h2 rfl
        simp only [List.cons.injEq, and_true] at h3
        rw [← h3]
        exact hL p' x rfl

/-- The scanning loop returns the fields closed so far and the maximal tokens of what
is left to scan (the open field followed by the rest of the input). -/
theorem mem_fieldsLoop (l : List Char) (cur : List Char) (spans : List String) (t : String)
    (hcur : ∀ c ∈ cur, isSpace c = false) :
    t ∈ fieldsLoop l cur spans ↔
      (t ∈ spans ∨
        (t.data ≠ [] ∧ (∀ c ∈ t.data, isSpace c = false) ∧
        ∃ pre post : List Char, cur ++ l = pre ++ t.data ++ post ∧
          (∀ p c, pre = p ++ [c] → isSpace c = true) ∧
          (∀ c q, post = c :: q → isSpace c = true))) := by
  have hmk : ∀ u : List Char, t = String.mk u ↔ t.data = u := by
    intro u
    constructor
    · rintro rfl; rfl
    · intro h; rw [← h]
  induction l generalizing cur spans with
  | nil =>
    rw [List.append_nil, token_of_no_space cur t.data hcur]
    unfold fieldsLoop
    cases cur with
    | nil => simp
    | cons x xs => simp [hmk]
  | cons r rest ih =>
    unfold fieldsLoop
    by_cases hr : isSpace r = true
    · rw [if_pos hr, token_split_space cur rest t.data r hcur hr]
      cases cur with
      | nil =>
        simp only [List.isEmpty_nil, if_true, ne_eq, not_true_eq_false, false_and, false_or]
        have h0 := ih [] spans (by simp)
        rw [List.nil_append] at h0
        exact h0
      | cons x xs =>
        simp only [List.isEmpty_cons, Bool.false_eq_true, if_false]
        have h0 := ih [] (spans ++ [String.mk (x :: xs)]) (by simp)
        rw [List.nil_append] at h0
        refine h0.trans ?_
        simp only [List.mem_append, List.mem_singleton, hmk, ne_eq,
          reduceCtorEq, not_false_eq_true, true_and]
        exact or_assoc
    · rw [if_neg hr]
      refine (ih (cur ++ [r]) spans ?_).trans ?_
      · intro c hc
        rcases List.mem_append.mp hc with h | h
        · exact hcur c h
        · rw [List.mem_singleton.mp h]
          simpa using hr
      · simp

/-- The tokens of `strings.Fields` are the maximal tokens of the text. -/
theorem mem_Fields (s t : String) : t ∈ Fields s ↔ IsMaximalToken s t := by
  unfold Fields
  rw [mem_fieldsLoop s.data [] [] t (by simp), isMaximalToken_iff]
  simp

theorem foldl_insert_spec (ws acc : List String) (hacc : acc.Nodup) :
    (ws.foldl (fun keys word => if word ∈ keys then keys else keys ++ [word]) acc).Nodup ∧
    ∀ t, t ∈ ws.foldl (fun keys word => if word ∈ keys then keys else keys ++ [word]) acc
      ↔ (t ∈ acc ∨ t ∈ ws) := by
  induction ws generalizing acc with
  | nil => simp [hacc]
  | cons w rest ih =>
    rw [List.foldl_cons]
    by_cases h : w ∈ acc
    · rw [if_pos h]
      refine ⟨(ih acc hacc).1, fun t => ?_⟩
      rw [(ih acc hacc).2 t, List.mem_cons]
      constructor
      · rintro (h1 | h1)
        · exact Or.inl h1
        · exact Or.inr (Or.inr h1)
      · rintro (h1 | rfl | h1)
        · exact Or.inl h1
        · exact Or.inl h
        · exact Or.inr h1
    · rw [if_neg h]
      have hnd : (acc ++ [w]).Nodup := by
        rw [List.nodup_append]
        refine ⟨hacc, List.nodup_singleton w, ?_⟩
        intro a ha hb
        rw [List.mem_singleton] at hb
        subst hb
        exact h ha
      refine ⟨(ih _ hnd).1, fun t => ?_⟩
      rw [(ih _ hnd).2 t, List.mem_append, List.mem_singleton, List.mem_cons, or_assoc]

theorem uniqueWords_nodup (ws : List String) : (uniqueWords ws).Nodup :=
  (foldl_insert_spec ws [] List.nodup_nil).1

theorem mem_uniqueWords (ws : List String) (t : String) : t ∈ uniqueWords ws ↔ t ∈ ws := by
  unfold uniqueWords
  rw [(foldl_insert_spec ws [] List.nodup_nil).2 t]
  simp

/-- C4 (tokenisation): for every text `s`, (1) the keys of the token map are exactly
the maximal non-empty substrings of `s` that hold no white space, character for
character; (2) each key is listed once; (3) no key is empty or holds a white space
character; (4) a text made of white space only, the empty text among them, gives
no key. -/
theorem C4_tokenisation (s : String) :
    (∀ t : String, t ∈ uniqueWords (Fields s) ↔ IsMaximalToken s t) ∧
    (uniqueWords (Fields s)).Nodup ∧
    (∀ t ∈ uniqueWords (Fields s), t ≠ "" ∧ ∀ c ∈ t.data, isSpace c = false) ∧
    ((∀ c ∈ s.data, isSpace c = true) → uniqueWords (Fields s) = []) := by
  have hmem : ∀ t : String, t ∈ uniqueWords (Fields s) ↔ IsMaximalToken s t := by
    intro t
    rw [mem_uniqueWords, mem_Fields]
  refine ⟨hmem, uniqueWords_nodup _, ?_, ?_⟩
  · intro t ht
    obtain ⟨hne, hsp, _⟩ := (hmem t).mp ht
    refine ⟨?_, hsp⟩
    rintro rfl
    exact hne rfl
  · intro hall
    apply List.eq_nil_iff_forall_not_mem.mpr
    intro t ht
    obtain ⟨hne, hsp, pre, post, heq, _, _⟩ := (hmem t).mp ht
    cases hd : t.data with
    | nil => exact hne hd
    | cons c q =>
      have h1 : c ∈ s.data := by rw [heq, hd]; simp
      have h2 : isSpace c = false := hsp c (by rw [hd]; exact List.mem_cons_self _ _)
      rw [hall c h1] at h2
      cases h2

/-! ## Reconciliation: structure of the resulting table -/

theorem assignNonZero_ID (v row : Word) : (assignNonZero v row).ID = row.ID := rfl

theorem assignNonZero_MainWord (v row : Word) : (assignNonZero v row).MainWord = row.MainWord := rfl

theorem assignNonZero_Base (v row : Word) :
    (assignNonZero v row).BaseLanguageID = row.BaseLanguageID := rfl

theorem foldl_Delete_words (dels : List Word) (db : DB) :
    (dels.foldl (fun d word => d.Delete word.ID) db).words
      = db.words.filter (fun w => decide (∀ d ∈ dels, d.ID ≠ w.ID)) := by
  induction dels generalizing db with
  | nil => simp
  | cons d rest ih =>
    rw [List.foldl_cons, ih]
    simp only [DB.Delete, List.filter_filter]
    apply List.filter_congr
    intro w _
    simp only [List.mem_cons, forall_eq_or_imp, Bool.decide_and, ne_eq, Bool.decide_eq_true]
    rw [Bool.and_comm]
    congr 1
    by_cases h : w.ID = d.ID
    · simp [h]
    · simp [h, Ne.symm h]

theorem foldl_Delete_seq (dels : List Word) (db : DB) :
    (dels.foldl (fun d word => d.Delete word.ID) db).seq = db.seq := by
  induction dels generalizing db with
  | nil => rfl
  | cons d rest ih => rw [List.foldl_cons, ih]; rfl

theorem foldl_Updates_words (ups : List Word) (db : DB) :
    (ups.foldl (fun d word => d.Updates word.ID
        { Word.zero with TranslateWord := word.TranslateWord,
                         LearningLanguageID := word.LearningLanguageID }) db).words
      = db.words.map (applyUpdates ups) := by
  induction ups generalizing db with
  | nil => simp [show applyUpdates [] = id from rfl]
  | cons u rest ih =>
    rw [List.foldl_cons, ih]
    simp only [DB.Updates, List.map_map]
    apply List.map_congr_left
    intro w _
    simp [applyUpdates, updateOf]

theorem foldl_Updates_seq (ups : List Word) (db : DB) :
    (ups.foldl (fun d word => d.Updates word.ID
        { Word.zero with TranslateWord := word.TranslateWord,
                         LearningLanguageID := word.LearningLanguageID }) db).seq = db.seq := by
  induction ups generalizing db with
  | nil => rfl
  | cons u rest ih => rw [List.foldl_cons, ih]; rfl

/-- The table after `/filledwords`: the rows whose `id` is in no deletion entry, each
in its place, with the update loop applied to it. -/
theorem filledwords_words (db : DB) (payload : RequestPayload) :
    (filledwords db (some payload)).1.words
      = (db.words.filter (fun w => decide (∀ d ∈ payload.DeletedWords, d.ID ≠ w.ID))).map
          (applyUpdates payload.WordsList) := by
  simp only [filledwords]
  rw [foldl_Updates_words, foldl_Delete_words]

theorem applyUpdates_ID (ups : List Word) (row : Word) : (applyUpdates ups row).ID = row.ID := by
  induction ups generalizing row with
  | nil => rfl
  | cons u rest ih =>
    simp only [applyUpdates, List.foldl_cons] at ih ⊢
    rw [ih]
    split <;> rfl

theorem applyUpdates_MainWord (ups : List Word) (row : Word) :
    (applyUpdates ups row).MainWord = row.MainWord := by
  induction ups generalizing row with
  | nil => rfl
  | cons u rest ih =>
    simp only [applyUpdates, List.foldl_cons] at ih ⊢
    rw [ih]
    split <;> rfl

theorem applyUpdates_Base (ups : List Word) (row : Word) :
    (applyUpdates ups row).BaseLanguageID = row.BaseLanguageID := by
  induction ups generalizing row with
  | nil => rfl
  | cons u rest ih =>
    simp only [applyUpdates, List.foldl_cons] at ih ⊢
    rw [ih]
    split <;> rfl

theorem applyUpdates_append (a b : List Word) (row : Word) :
    applyUpdates (a ++ b) row = applyUpdates b (applyUpdates a row) := by
  simp [applyUpdates, List.foldl_append]

/-- Entries for other ids leave a row as it is. -/
theorem applyUpdates_of_not_mem (ups : List Word) (row : Word)
    (h : ∀ u ∈ ups, u.ID ≠ row.ID) : applyUpdates ups row = row := by
  induction ups generalizing row with
  | nil => rfl
  | cons u rest ih =>
    have hu : ¬ row.ID = u.ID := fun e => h u (List.mem_cons_self _ _) e.symm
    simp only [applyUpdates, List.foldl_cons, hu, if_false]
    exact ih row (fun v hv => h v (List.mem_cons_of_mem _ hv))

/-- Entries whose translation is absent leave the translation of a row as it is. -/
theorem applyUpdates_Translate_of_absent (ups : List Word) (row : Word)
    (h : ∀ u ∈ ups, u.ID = row.ID → u.TranslateWord = none) :
    (applyUpdates ups row).TranslateWord = row.TranslateWord := by
  induction ups generalizing row with
  | nil => rfl
  | cons u rest ih =>
    simp only [applyUpdates, List.foldl_cons] at ih ⊢
    by_cases hu : row.ID = u.ID
    · have hn : u.TranslateWord = none := h u (List.mem_cons_self _ _) hu.symm
      simp only [hu, if_true]
      rw [ih]
      · simp [assignNonZero, updateOf, hn]
      · intro v hv hid
        exact h v (List.mem_cons_of_mem _ hv) (by rw [hid]; rfl)
    · simp only [hu, if_false]
      exact ih row (fun v hv hid => h v (List.mem_cons_of_mem _ hv) hid)

/-- Entries whose target language is zero leave the target language of a row as it is. -/
theorem applyUpdates_Learning_of_zero (ups : List Word) (row : Word)
    (h : ∀ u ∈ ups, u.ID = row.ID → u.LearningLanguageID = 0) :
    (applyUpdates ups row).LearningLanguageID = row.LearningLanguageID := by
  induction ups generalizing row with
  | nil => rfl
  | cons u rest ih =>
    simp only [applyUpdates, List.foldl_cons] at ih ⊢
    by_cases hu : row.ID = u.ID
    · have hn : u.LearningLanguageID = 0 := h u (List.mem_cons_self _ _) hu.symm
      simp only [hu, if_true]
      rw [ih]
      · simp [assignNonZero, updateOf, hn]
      · intro v hv hid
        exact h v (List.mem_cons_of_mem _ hv) (by rw [hid]; rfl)
    · simp only [hu, if_false]
      exact ih row (fun v hv hid => h v (List.mem_cons_of_mem _ hv) hid)

/-! ## Ingestion: the create loop and the re-fetch loop -/

theorem exists_of_Count_ne_zero (db : DB) (word : String) (base : Nat)
    (h : db.Count word base ≠ 0) :
    ∃ w ∈ db.words, w.MainWord = some word ∧ w.BaseLanguageID = base := by
  unfold DB.Count at h
  obtain ⟨w, hw⟩ := List.exists_mem_of_length_pos (Nat.pos_of_ne_zero h)
  unfold DB.whereWord at hw
  rw [List.mem_filter] at hw
  exact ⟨w, hw.1, of_decide_eq_true hw.2⟩

/-- A token whose text is already stored, under any language, makes the create loop
skip the insertion or makes the insertion fail: the table stays as it is. -/
theorem saveWord_eq_of_text (req : Request) (db : DB) (word : String)
    (h : ∃ w ∈ db.words, w.MainWord = some word) : saveWord req db word = db := by
  unfold saveWord
  split
  · unfold DB.Create
    have hany : db.words.any (fun r => decide (r.MainWord = some word)) = true := by
      rw [List.any_eq_true]
      obtain ⟨w, hw, hm⟩ := h
      exact ⟨w, hw, decide_eq_true hm⟩
    simp [hany]
  · rfl

/-- The create loop only ever appends rows. -/
theorem saveWord_extends (req : Request) (db : DB) (word : String) :
    db.words <+: (saveWord req db word).words := by
  unfold saveWord DB.Create
  split
  · simp only [reduceCtorEq, if_false, if_true]
    split
    · exact List.prefix_refl _
    · exact List.prefix_append _ _
  · exact List.prefix_refl _

/-- After its turn in the create loop, the text of a token is stored. -/
theorem saveWord_has_text (req : Request) (db : DB) (word : String) :
    ∃ w ∈ (saveWord req db word).words, w.MainWord = some word := by
  unfold saveWord
  split
  · unfold DB.Create
    simp only [reduceCtorEq, if_false, if_true]
    split
    · rename_i hany
      rw [List.any_eq_true] at hany
      obtain ⟨w, hw, hm⟩ := hany
      exact ⟨w, hw, of_decide_eq_true hm⟩
    · exact ⟨_, List.mem_append_right _ (List.mem_singleton_self _), rfl⟩
  · rename_i hc
    obtain ⟨w, hw, hm, _⟩ := exists_of_Count_ne_zero db word req.BaseLanguageID hc
    exact ⟨w, hw, hm⟩

theorem foldl_saveWord_extends (req : Request) (l : List String) (db : DB) :
    db.words <+: (l.foldl (saveWord req) db).words := by
  induction l generalizing db with
  | nil => exact List.prefix_refl _
  | cons t rest ih =>
    rw [List.foldl_cons]
    exact (saveWord_extends req db t).trans (ih _)

theorem foldl_saveWord_has_text (req : Request) (l : List String) (db : DB) :
    ∀ t ∈ l, ∃ w ∈ (l.foldl (saveWord req) db).words, w.MainWord = some t := by
  induction l generalizing db with
  | nil => intro t ht; cases ht
  | cons a rest ih =>
    intro t ht
    rw [List.foldl_cons]
    rcases List.mem_cons.mp ht with rfl | ht
    · obtain ⟨w, hw, hm⟩ := saveWord_has_text req db t
      exact ⟨w, (foldl_saveWord_extends req rest _).subset hw, hm⟩
    · exact ih _ t ht

theorem foldl_saveWord_eq_of_text (req : Request) (l : List String) (db : DB)
    (h : ∀ t ∈ l, ∃ w ∈ db.words, w.MainWord = some t) : l.foldl (saveWord req) db = db := by
  induction l with
  | nil => rfl
  | cons a rest ih =>
    rw [List.foldl_cons, saveWord_eq_of_text req db a (h a (List.mem_cons_self _ _))]
    exact ih (fun t ht => h t (List.mem_cons_of_mem _ ht))

/-- The re-fetch loop appends, to each list, the fetched Words that belong to it, in
the order in which the tokens are visited. -/
theorem foldl_classifyWord (req : Request) (db : DB) (pool : String → Word)
    (l : List String) (a b : List Word) :
    l.foldl (classifyWord req db pool) (a, b)
      = (a ++ (l.map (fun t => db.First (pool t) t req.BaseLanguageID)).filter
                (fun w => decide (w.TranslateWord ≠ none)),
         b ++ (l.map (fun t => db.First (pool t) t req.BaseLanguageID)).filter
                (fun w => decide (w.TranslateWord = none))) := by
  induction l generalizing a b with
  | nil => simp
  | cons t rest ih =>
    rw [List.foldl_cons]
    have hstep : classifyWord req db pool (a, b) t
        = if (db.First (pool t) t req.BaseLanguageID).TranslateWord ≠ none
          then (a ++ [db.First (pool t) t req.BaseLanguageID], b)
          else (a, b ++ [db.First (pool t) t req.BaseLanguageID]) := rfl
    rw [hstep]
    by_cases h : (db.First (pool t) t req.BaseLanguageID).TranslateWord = none
    · rw [if_neg (not_not.mpr h), ih]
      simp [h]
    · rw [if_pos h, ih]
      simp [h]

theorem leastID_mem (rows : List Word) (w : Word) (h : leastID rows = some w) : w ∈ rows := by
  induction rows generalizing w with
  | nil => simp [leastID] at h
  | cons a rest ih =>
    cases hr : leastID rest with
    | none =>
      simp only [leastID, hr, Option.some.injEq] at h
      subst h
      exact List.mem_cons_self _ _
    | some v =>
      simp only [leastID, hr] at h
      split at h
      · cases h; exact List.mem_cons_self _ _
      · cases h; exact List.mem_cons_of_mem _ (ih _ hr)

/-- What `First` hands back is the scan of a stored row with the text and base
language asked for, or the zero Word when there is no such row. -/
theorem First_spec (db : DB) (stale : Word) (word : String) (base : Nat) :
    (∃ row ∈ db.words, row.MainWord = some word ∧ row.BaseLanguageID = base ∧
      db.First stale word base = scanRow stale row) ∨
    (db.First stale word base = Word.zero ∧ db.Count word base = 0) := by
  unfold DB.First DB.Count
  cases hl : leastID (db.whereWord word base) with
  | some w =>
    left
    have hm := leastID_mem _ _ hl
    unfold DB.whereWord at hm
    rw [List.mem_filter] at hm
    exact ⟨w, hm.1, (of_decide_eq_true hm.2).1, (of_decide_eq_true hm.2).2, rfl⟩
  | none =>
    right
    refine ⟨rfl, ?_⟩
    cases hrows : db.whereWord word base with
    | nil => rfl
    | cons a rest =>
      rw [hrows] at hl
      cases hr : leastID rest with
      | none => simp [leastID, hr] at hl
      | some v =>
        simp only [leastID, hr] at hl
        split at hl <;> cases hl

/-- A row whose source language reads back is scanned up to its last column: the scan
hands back its id, text, source language and translation, whatever the buffers
held. -/
theorem scanRow_of_base (stale row : Word) (h : row.BaseLanguageID < scanBound) :
    (scanRow stale row).ID = row.ID ∧ (scanRow stale row).MainWord = row.MainWord ∧
    (scanRow stale row).BaseLanguageID = row.BaseLanguageID ∧
    (scanRow stale row).TranslateWord = row.TranslateWord ∧
    (scanRow stale row).LearningLanguageID
      = (if row.LearningLanguageID < scanBound then row.LearningLanguageID else 0) := by
  unfold scanRow
  rw [if_pos h]
  by_cases hl : row.LearningLanguageID < scanBound
  · simp [hl]
  · simp [hl]

/-- For a source language that reads back, what `First` hands back does not depend on
the scan buffers. -/
theorem First_eq_of_base (db : DB) (stale stale' : Word) (word : String) (base : Nat)
    (h : base < scanBound) : db.First stale word base = db.First stale' word base := by
  unfold DB.First
  cases hl : leastID (db.whereWord word base) with
  | none => rfl
  | some w =>
    have hm := leastID_mem _ _ hl
    unfold DB.whereWord at hm
    rw [List.mem_filter] at hm
    have hb : w.BaseLanguageID < scanBound := by
      rw [(of_decide_eq_true hm.2).2]
      exact h
    simp only [scanRow, if_pos hb]

theorem perm_pair {α : Type} (a b : α) (l : List α) (h : l.Perm [a, b]) :
    l = [a, b] ∨ l = [b, a] := by
  have hlen := h.length_eq
  match l, hlen with
  | [x, y], _ =>
    have hx : x ∈ [a, b] := h.subset (List.mem_cons_self _ _)
    rcases List.mem_cons.mp hx with rfl | hx
    · left
      have := List.perm_singleton.mp (List.Perm.cons_inv h)
      rw [this]
    · have hx := List.mem_singleton.mp hx
      subst hx
      right
      have h2 : List.Perm (x :: [y]) (x :: [a]) := h.trans (List.Perm.swap x a [])
      have := List.perm_singleton.mp (List.Perm.cons_inv h2)
      rw [this]

/-- The table after the create loop, and the two lists, spelled out. -/
theorem submit_eq (db : DB) (req : Request) (r₁ r₂ : RangeOrder) (pool : String → Word) :
    submit db (some req) r₁ r₂ pool
      = ((r₁.order (uniqueWords (Fields req.Text))).foldl (saveWord req) db,
         Response.partition
          (((r₂.order (uniqueWords (Fields req.Text))).map
              (fun t => DB.First ((r₁.order (uniqueWords (Fields req.Text))).foldl
                (saveWord req) db) (pool t) t req.BaseLanguageID)).filter
            (fun w => decide (w.TranslateWord ≠ none)))
          (((r₂.order (uniqueWords (Fields req.Text))).map
              (fun t => DB.First ((r₁.order (uniqueWords (Fields req.Text))).foldl
                (saveWord req) db) (pool t) t req.BaseLanguageID)).filter
            (fun w => decide (w.TranslateWord = none)))) := by
  simp only [submit, foldl_classifyWord, List.nil_append]

/-- A second submit of the same request finds the text of every token stored. -/
theorem submit_twice_db (db : DB) (req : Request) (r₁ r₃ : RangeOrder) :
    (r₃.order (uniqueWords (Fields req.Text))).foldl (saveWord req)
        ((r₁.order (uniqueWords (Fields req.Text))).foldl (saveWord req) db)
      = (r₁.order (uniqueWords (Fields req.Text))).foldl (saveWord req) db := by
  apply foldl_saveWord_eq_of_text
  intro t ht
  apply foldl_saveWord_has_text
  exact (r₁.perm _).mem_iff.mpr ((r₃.perm _).mem_iff.mp ht)

/-! ## Ingestion: what the create loop adds, and what the re-fetch loop returns -/

theorem lt_of_mem_maxID (rows : List Word) (m : Nat) :
    ∀ w ∈ rows, w.ID ≤ rows.foldl (fun m w => max m w.ID) m := by
  induction rows generalizing m with
  | nil => intro w hw; cases hw
  | cons a rest ih =>
    intro w hw
    rw [List.foldl_cons]
    rcases List.mem_cons.mp hw with rfl | hw
    · have hmono : ∀ (l : List Word) (k : Nat), k ≤ l.foldl (fun m w => max m w.ID) k := by
        intro l
        induction l with
        | nil => intro k; exact Nat.le_refl _
        | cons b l ihl =>
          intro k
          rw [List.foldl_cons]
          exact Nat.le_trans (Nat.le_max_left _ _) (ihl _)
      exact Nat.le_trans (Nat.le_max_right _ _) (hmono rest _)
    · exact ih _ w hw

/-- One turn of the create loop on a token whose text is not stored appends the new
Word, with a fresh id. -/
theorem saveWord_of_new (req : Request) (db : DB) (word : String)
    (h : ∀ v ∈ db.words, v.MainWord ≠ some word) :
    (saveWord req db word).words
      = db.words ++ [⟨max (maxID db.words) db.seq + 1, some word, req.BaseLanguageID, none,
          req.LearningLanguageID⟩] := by
  have hcount : db.Count word req.BaseLanguageID = 0 := by
    by_contra hc
    obtain ⟨w, hw, hm, _⟩ := exists_of_Count_ne_zero db word req.BaseLanguageID hc
    exact h w hw hm
  have hany : db.words.any (fun r => decide (r.MainWord = some word)) = false := by
    rw [List.any_eq_false]
    intro v hv
    simpa using h v hv
  simp [saveWord, hcount, DB.Create, hany]

/-- What the create loop does to the table: it appends Words and changes nothing
else.  Every appended Word is for a visited token whose text was not stored before
(under any language), carries the request's two languages and no translation, and
has an id above every id stored before; appended Words have different texts; every
visited token whose text was not stored before gets a Word. -/
theorem foldl_saveWord_effect (req : Request) (l : List String) (db : DB) :
    ∃ added : List Word,
      (l.foldl (saveWord req) db).words = db.words ++ added ∧
      (∀ w ∈ added, ∃ t ∈ l, w.MainWord = some t ∧
        (∀ v ∈ db.words, v.MainWord ≠ some t) ∧
        w.BaseLanguageID = req.BaseLanguageID ∧
        w.LearningLanguageID = req.LearningLanguageID ∧
        w.TranslateWord = none ∧ ∀ v ∈ db.words, v.ID < w.ID) ∧
      added.Pairwise (fun a b => a.MainWord ≠ b.MainWord) ∧
      (∀ t ∈ l, (∀ v ∈ db.words, v.MainWord ≠ some t) → ∃ w ∈ added, w.MainWord = some t) := by
  induction l generalizing db with
  | nil =>
    refine ⟨[], by simp, ?_, List.Pairwise.nil, ?_⟩
    · intro w hw; cases hw
    · intro t ht; cases ht
  | cons a rest ih =>
    rw [List.foldl_cons]
    obtain ⟨added', hwords, hshape, hpair, hall⟩ := ih (saveWord req db a)
    by_cases hnew : ∀ v ∈ db.words, v.MainWord ≠ some a
    · -- the text of `a` is not stored: a Word is appended for it
      have hsave := saveWord_of_new req db a hnew
      refine ⟨⟨max (maxID db.words) db.seq + 1, some a, req.BaseLanguageID, none,
          req.LearningLanguageID⟩ :: added', ?_, ?_, ?_, ?_⟩
      · rw [hwords, hsave, List.append_assoc]
        rfl
      · intro w hw
        rcases List.mem_cons.mp hw with rfl | hw
        · refine ⟨a, List.mem_cons_self _ _, rfl, hnew, rfl, rfl, rfl, ?_⟩
          intro v hv
          have h1 := lt_of_mem_maxID db.words 0 v hv
          show v.ID < max (maxID db.words) db.seq + 1
          unfold maxID
          omega
        · obtain ⟨t, ht, hm, hno, hb, hl, htr, hid⟩ := hshape w hw
          refine ⟨t, List.mem_cons_of_mem _ ht, hm, ?_, hb, hl, htr, ?_⟩
          · intro v hv
            exact hno v (by rw [hsave]; exact List.mem_append_left _ hv)
          · intro v hv
            exact hid v (by rw [hsave]; exact List.mem_append_left _ hv)
      · rw [List.pairwise_cons]
        refine ⟨?_, hpair⟩
        intro w hw
        obtain ⟨t, _, hm, hno, _⟩ := hshape w hw
        have h1 := hno ⟨max (maxID db.words) db.seq + 1, some a, req.BaseLanguageID, none,
          req.LearningLanguageID⟩ (by rw [hsave]; simp)
        rw [hm]
        exact h1
      · intro t ht hno
        rcases List.mem_cons.mp ht with rfl | ht
        · exact ⟨_, List.mem_cons_self _ _, rfl⟩
        · by_cases hta : t = a
          · subst hta
            exact ⟨_, List.mem_cons_self _ _, rfl⟩
          · obtain ⟨w, hw, hm⟩ := hall t ht (by
              intro v hv
              rw [hsave, List.mem_append, List.mem_singleton] at hv
              rcases hv with hv | rfl
              · exact hno v hv
              · simpa using fun h => hta h.symm)
            exact ⟨w, List.mem_cons_of_mem _ hw, hm⟩
    · -- the text of `a` is stored already: nothing happens in this turn
      have hex : ∃ w ∈ db.words, w.MainWord = some a := by
        by_contra hc
        exact hnew (fun v hv hm => hc ⟨v, hv, hm⟩)
      have hsave := saveWord_eq_of_text req db a hex
      rw [hsave] at hwords hshape hall ⊢
      refine ⟨added', hwords, ?_, hpair, ?_⟩
      · intro w hw
        obtain ⟨t, ht, rest⟩ := hshape w hw
        exact ⟨t, List.mem_cons_of_mem _ ht, rest⟩
      · intro t ht hno
        rcases List.mem_cons.mp ht with rfl | ht
        · exact absurd hno hnew
        · exact hall t ht hno

/-- The create loop keeps the pair (text, source language) unique. -/
theorem submit_PairUnique (db : DB) (req : Request) (r₁ r₂ : RangeOrder)
    (pool : String → Word) (h : PairUnique db) :
    PairUnique (submit db (some req) r₁ r₂ pool).1 := by
  obtain ⟨added, hwords, hshape, hpair, _⟩ :=
    foldl_saveWord_effect req (r₁.order (uniqueWords (Fields req.Text))) db
  unfold PairUnique at h ⊢
  simp only [submit]
  rw [hwords, List.pairwise_append]
  refine ⟨h, hpair.imp (fun hab hc => hab hc.1), ?_⟩
  intro a ha b hb hc
  obtain ⟨t, _, hm, hno, _⟩ := hshape b hb
  exact hno a ha (by rw [hc.1, hm])

/-- Reconciliation keeps the pair (text, source language) unique. -/
theorem filledwords_PairUnique (db : DB) (payload : RequestPayload)
    (h : PairUnique db) : PairUnique (filledwords db (some payload)).1 := by
  unfold PairUnique at h ⊢
  rw [filledwords_words, List.pairwise_map]
  apply (h.filter _).imp
  intro a b hab
  rw [applyUpdates_MainWord, applyUpdates_MainWord, applyUpdates_Base, applyUpdates_Base]
  exact hab

/-- The two lists of a submit hold, between them, one fetched entry per token. -/
theorem submit_lists_perm (db : DB) (req : Request) (r₁ r₂ : RangeOrder)
    (pool : String → Word) :
    ((submit db (some req) r₁ r₂ pool).2.translated
        ++ (submit db (some req) r₁ r₂ pool).2.untranslated).Perm
      ((uniqueWords (Fields req.Text)).map
        (fun t => DB.First (submit db (some req) r₁ r₂ pool).1 (pool t) t
          req.BaseLanguageID)) := by
  simp only [submit_eq, Response.translated, Response.untranslated]
  refine List.Perm.trans ?_ ((r₂.perm _).map _)
  have hnot : (fun w : Word => decide (w.TranslateWord = none))
      = (fun w : Word => !decide (w.TranslateWord ≠ none)) := by
    funext w
    simp
  rw [hnot]
  exact List.filter_append_perm _ _

/-- The entry fetched for a token is the scan of a stored Word with that text and the
request's source language when such a Word was stored before the call or the text
was not stored at all. -/
theorem submit_entry_of_storable (db : DB) (req : Request) (r₁ r₂ : RangeOrder)
    (pool : String → Word) (t : String)
    (ht : t ∈ uniqueWords (Fields req.Text))
    (h : db.Count t req.BaseLanguageID ≠ 0 ∨ ∀ v ∈ db.words, v.MainWord ≠ some t) :
    ∃ row ∈ (submit db (some req) r₁ r₂ pool).1.words,
      row.MainWord = some t ∧ row.BaseLanguageID = req.BaseLanguageID ∧
      DB.First (submit db (some req) r₁ r₂ pool).1 (pool t) t req.BaseLanguageID
        = scanRow (pool t) row := by
  rcases First_spec (submit db (some req) r₁ r₂ pool).1 (pool t) t req.BaseLanguageID
    with hf | hf
  · exact hf
  · exfalso
    have hzero := hf.2
    simp only [submit] at hzero
    obtain ⟨added, hwords, hshape, _, hall⟩ :=
      foldl_saveWord_effect req (r₁.order (uniqueWords (Fields req.Text))) db
    have hrow : ∃ w ∈ db.words ++ added, w.MainWord = some t ∧
        w.BaseLanguageID = req.BaseLanguageID := by
      rcases h with h | h
      · obtain ⟨w, hw, hm⟩ := exists_of_Count_ne_zero db t req.BaseLanguageID h
        exact ⟨w, List.mem_append_left _ hw, hm⟩
      · obtain ⟨w, hw, hm⟩ := hall t ((r₁.perm _).mem_iff.mpr ht) h
        obtain ⟨t', _, hm', _, hb, _⟩ := hshape w hw
        exact ⟨w, List.mem_append_right _ hw, hm, hb⟩
    obtain ⟨w, hw, hm⟩ := hrow
    unfold DB.Count DB.whereWord at hzero
    rw [hwords] at hzero
    have hmem : w ∈ (db.words ++ added).filter
        (fun w => decide (w.MainWord = some t ∧ w.BaseLanguageID = req.BaseLanguageID)) := by
      rw [List.mem_filter]
      exact ⟨hw, decide_eq_true hm⟩
    rw [List.eq_nil_of_length_eq_zero hzero] at hmem
    cases hmem

/-- The entry fetched for a token is the zero Word when its text was stored before
the call under other source languages only. -/
theorem submit_entry_of_clash (db : DB) (req : Request) (r₁ r₂ : RangeOrder)
    (pool : String → Word) (t : String)
    (hcount : db.Count t req.BaseLanguageID = 0)
    (hclash : ∃ v ∈ db.words, v.MainWord = some t) :
    DB.First (submit db (some req) r₁ r₂ pool).1 (pool t) t req.BaseLanguageID
      = Word.zero := by
  rcases First_spec (submit db (some req) r₁ r₂ pool).1 (pool t) t req.BaseLanguageID
    with hf | hf
  · exfalso
    obtain ⟨row, hmem, hm, hb, _⟩ := hf
    simp only [submit] at hmem
    obtain ⟨added, hwords, hshape, _, _⟩ :=
      foldl_saveWord_effect req (r₁.order (uniqueWords (Fields req.Text))) db
    rw [hwords, List.mem_append] at hmem
    rcases hmem with hmem | hmem
    · have hin : row ∈ db.whereWord t req.BaseLanguageID := by
        unfold DB.whereWord
        rw [List.mem_filter]
        exact ⟨hmem, decide_eq_true ⟨hm, hb⟩⟩
      unfold DB.Count at hcount
      rw [List.eq_nil_of_length_eq_zero hcount] at hin
      cases hin
    · obtain ⟨t', _, hm', hno, _⟩ := hshape _ hmem
      obtain ⟨v, hv, hvm⟩ := hclash
      rw [hm] at hm'
      cases hm'
      exact hno v hv hvm
  · exact hf.1

/-- An entry with a present translation, followed by entries for other ids only,
leaves that translation in the row. -/
theorem applyUpdates_Translate_of_last (pre post : List Word) (e row : Word) (t : String)
    (hid : e.ID = row.ID) (ht : e.TranslateWord = some t) (hpost : ∀ u ∈ post, u.ID ≠ e.ID) :
    (applyUpdates (pre ++ e :: post) row).TranslateWord = some t := by
  rw [applyUpdates_append]
  have hcons : applyUpdates (e :: post) (applyUpdates pre row)
      = applyUpdates post (assignNonZero (updateOf e) (applyUpdates pre row)) := by
    have h1 : (applyUpdates pre row).ID = e.ID := by rw [applyUpdates_ID, hid]
    unfold applyUpdates at h1 ⊢
    rw [List.foldl_cons, if_pos h1]
  rw [hcons, applyUpdates_of_not_mem]
  · simp [assignNonZero, updateOf, ht]
  · intro u hu
    rw [assignNonZero_ID, applyUpdates_ID, ← hid]
    exact hpost u hu

/-- C10 (deletions strictly before updates): after `/filledwords`, (1) no stored Word
has an id that occurs in `DeletedWords`, whether or not the id also occurs in
`WordsList`; (2) the stored Words are the Words stored before whose id is in no
deletion entry, in the same places, each with its id, text and source language
unchanged, so an update creates no Word; (3) for an id that occurs in neither list,
the stored Words with that id are the same as before, all fields unchanged. -/
theorem C10_deletions_before_updates (db : DB) (payload : RequestPayload) :
    (∀ d ∈ payload.DeletedWords, ∀ w ∈ (filledwords db (some payload)).1.words, w.ID ≠ d.ID) ∧
    List.Forall₂
      (fun w w' => w'.ID = w.ID ∧ w'.MainWord = w.MainWord ∧
        w'.BaseLanguageID = w.BaseLanguageID)
      (db.words.filter (fun w => decide (∀ d ∈ payload.DeletedWords, d.ID ≠ w.ID)))
      (filledwords db (some payload)).1.words ∧
    (∀ i : Nat, (∀ d ∈ payload.DeletedWords, d.ID ≠ i) → (∀ u ∈ payload.WordsList, u.ID ≠ i) →
      (filledwords db (some payload)).1.words.filter (fun w => decide (w.ID = i))
        = db.words.filter (fun w => decide (w.ID = i))) := by
  rw [filledwords_words]
  refine ⟨?_, ?_, ?_⟩
  · intro d hd w hw
    rw [List.mem_map] at hw
    obtain ⟨w₀, hw₀, rfl⟩ := hw
    rw [List.mem_filter] at hw₀
    rw [applyUpdates_ID]
    exact fun e => (of_decide_eq_true hw₀.2) d hd e.symm
  · rw [List.forall₂_map_right_iff]
    apply List.forall₂_same.mpr
    intro w _
    exact ⟨applyUpdates_ID _ _, applyUpdates_MainWord _ _, applyUpdates_Base _ _⟩
  · intro i hdel hupd
    rw [List.filter_map, List.filter_filter]
    have hfilter : db.words.filter (fun a =>
          ((fun w => decide (w.ID = i)) ∘ applyUpdates payload.WordsList) a &&
            decide (∀ d ∈ payload.DeletedWords, d.ID ≠ a.ID))
        = db.words.filter (fun w => decide (w.ID = i)) := by
      apply List.filter_congr
      intro w _
      simp only [Function.comp, applyUpdates_ID]
      by_cases h : w.ID = i
      · subst h
        simp only [decide_True, Bool.true_and, decide_eq_true_eq]
        exact hdel
      · simp [h]
    rw [hfilter]
    conv_rhs => rw [← List.map_id (db.words.filter (fun w => decide (w.ID = i)))]
    apply List.map_congr_left
    intro w hw
    rw [List.mem_filter] at hw
    have hw2 : w.ID = i := of_decide_eq_true hw.2
    rw [id]
    exact applyUpdates_of_not_mem _ _ (fun u hu => by rw [hw2]; exact hupd u hu)

/-- C5 (update isolation): if a Word with id `e.ID` is stored, no deletion entry names
that id, `e` carries the translation `t`, and no entry after `e` in the update list
names that id, then after `/filledwords` a Word with that id is stored and every
stored Word with that id has translation `t`, whatever the other entries of the
update list are and wherever `e` stands among them. -/
theorem C5_update_isolation (db : DB) (pre post dels : List Word) (e : Word) (t : String)
    (hstored : ∃ w ∈ db.words, w.ID = e.ID)
    (hdel : ∀ d ∈ dels, d.ID ≠ e.ID)
    (ht : e.TranslateWord = some t)
    (hlater : ∀ u ∈ post, u.ID ≠ e.ID) :
    (∃ w ∈ (filledwords db (some { WordsList := pre ++ e :: post, DeletedWords := dels })).1.words,
        w.ID = e.ID) ∧
    (∀ w ∈ (filledwords db (some { WordsList := pre ++ e :: post, DeletedWords := dels })).1.words,
        w.ID = e.ID → w.TranslateWord = some t) := by
  rw [filledwords_words]
  constructor
  · obtain ⟨w, hw, hid⟩ := hstored
    refine ⟨applyUpdates (pre ++ e :: post) w, ?_, ?_⟩
    · apply List.mem_map_of_mem
      rw [List.mem_filter]
      exact ⟨hw, decide_eq_true (fun d hd => by rw [hid]; exact hdel d hd)⟩
    · rw [applyUpdates_ID, hid]
  · intro w hw hid
    rw [List.mem_map] at hw
    obtain ⟨w₀, _, rfl⟩ := hw
    rw [applyUpdates_ID] at hid
    exact applyUpdates_Translate_of_last pre post e w₀ t hid.symm ht hlater

/-- Witness of C5: word 7 is stored, the batch deletes word 3 and updates word 3 (just
deleted), word 7 and word 99 (never stored), in that order. -/
theorem C5_update_isolation_witness :
    (∃ w ∈ (filledwords
          { words := [⟨3, some "uno", 1, none, 2⟩, ⟨7, some "dos", 1, none, 2⟩], seq := 7 }
          (some { WordsList := [⟨3, none, 0, some "one", 2⟩] ++
                    ⟨7, none, 0, some "two", 2⟩ :: [⟨99, none, 0, some "x", 2⟩],
                  DeletedWords := [⟨3, none, 0, none, 0⟩] })).1.words,
        w.ID = (⟨7, none, 0, some "two", 2⟩ : Word).ID) ∧
    (∀ w ∈ (filledwords
          { words := [⟨3, some "uno", 1, none, 2⟩, ⟨7, some "dos", 1, none, 2⟩], seq := 7 }
          (some { WordsList := [⟨3, none, 0, some "one", 2⟩] ++
                    ⟨7, none, 0, some "two", 2⟩ :: [⟨99, none, 0, some "x", 2⟩],
                  DeletedWords := [⟨3, none, 0, none, 0⟩] })).1.words,
        w.ID = (⟨7, none, 0, some "two", 2⟩ : Word).ID → w.TranslateWord = some "two") :=
  C5_update_isolation
    { words := [⟨3, some "uno", 1, none, 2⟩, ⟨7, some "dos", 1, none, 2⟩], seq := 7 }
    [⟨3, none, 0, some "one", 2⟩] [⟨99, none, 0, some "x", 2⟩] [⟨3, none, 0, none, 0⟩]
    ⟨7, none, 0, some "two", 2⟩ "two"
    (by decide) (by decide) rfl (by decide)

/-- C6 (deletion idempotence): inserting, anywhere in `DeletedWords`, an entry whose id
is not stored or is already named by another deletion entry of the batch changes
nothing: `/filledwords` gives the same table and the same answer as without the
entry, and the answer is the success acknowledgment. -/
theorem C6_deletion_idempotence (db : DB) (ups pre post : List Word) (d : Word)
    (h : (∀ w ∈ db.words, w.ID ≠ d.ID) ∨ (∃ d' ∈ pre ++ post, d'.ID = d.ID)) :
    filledwords db (some { WordsList := ups, DeletedWords := pre ++ d :: post })
      = filledwords db (some { WordsList := ups, DeletedWords := pre ++ post }) ∧
    (filledwords db (some { WordsList := ups, DeletedWords := pre ++ d :: post })).2
      = Response.success := by
  refine ⟨?_, rfl⟩
  have hdel : (d :: post).foldl (fun x word => x.Delete word.ID)
        (pre.foldl (fun x word => x.Delete word.ID) db)
      = post.foldl (fun x word => x.Delete word.ID)
          (pre.foldl (fun x word => x.Delete word.ID) db) := by
    have hw := foldl_Delete_words (pre ++ d :: post) db
    have hw' := foldl_Delete_words (pre ++ post) db
    have hs := foldl_Delete_seq (pre ++ d :: post) db
    have hs' := foldl_Delete_seq (pre ++ post) db
    rw [List.foldl_append] at hw hw' hs hs'
    have hfilter : db.words.filter (fun w => decide (∀ x ∈ pre ++ d :: post, x.ID ≠ w.ID))
        = db.words.filter (fun w => decide (∀ x ∈ pre ++ post, x.ID ≠ w.ID)) := by
      apply List.filter_congr
      intro w hwmem
      apply decide_eq_decide.mpr
      constructor
      · intro hall x hx
        apply hall x
        rw [List.mem_append] at hx ⊢
        rcases hx with hx | hx
        · exact Or.inl hx
        · exact Or.inr (List.mem_cons_of_mem _ hx)
      · intro hall x hx
        rw [List.mem_append, List.mem_cons] at hx
        rcases hx with hx | rfl | hx
        · exact hall x (List.mem_append_left _ hx)
        · rcases h with h | ⟨d', hd', hid⟩
          · exact fun e => h w hwmem e.symm
          · rw [← hid]; exact hall d' hd'
        · exact hall x (List.mem_append_right _ hx)
    generalize (d :: post).foldl (fun x word => x.Delete word.ID)
      (pre.foldl (fun x word => x.Delete word.ID) db) = A at hw hs ⊢
    generalize post.foldl (fun x word => x.Delete word.ID)
      (pre.foldl (fun x word => x.Delete word.ID) db) = B at hw' hs' ⊢
    cases A; cases B
    simp only at hw hw' hs hs'
    rw [DB.mk.injEq]
    exact ⟨by rw [hw, hw', hfilter], by rw [hs, hs']⟩
  simp only [filledwords, List.foldl_append]
  rw [hdel]

/-- Witness of C6: the extra entry names id 99, which is not stored. -/
theorem C6_deletion_idempotence_witness :
    filledwords { words := [⟨3, some "uno", 1, none, 2⟩], seq := 3 }
        (some { WordsList := [⟨3, none, 0, some "one", 2⟩],
                DeletedWords := [] ++ ⟨99, none, 0, none, 0⟩ :: [] })
      = filledwords { words := [⟨3, some "uno", 1, none, 2⟩], seq := 3 }
        (some { WordsList := [⟨3, none, 0, some "one", 2⟩], DeletedWords := [] ++ [] }) ∧
    (filledwords { words := [⟨3, some "uno", 1, none, 2⟩], seq := 3 }
        (some { WordsList := [⟨3, none, 0, some "one", 2⟩],
                DeletedWords := [] ++ ⟨99, none, 0, none, 0⟩ :: [] })).2
      = Response.success :=
  C6_deletion_idempotence { words := [⟨3, some "uno", 1, none, 2⟩], seq := 3 }
    [⟨3, none, 0, some "one", 2⟩] [] [] ⟨99, none, 0, none, 0⟩ (Or.inl (by decide))

/-- C7, counterexample: Word 1 is stored with translation "hello"; the batch has no
deletion and one update entry for id 1 with no translation and a zero target
language.  After `/filledwords` Word 1 still has translation "hello", not an absent
one, and its target language is still 2. -/
theorem C7_counterexample :
    (filledwords { words := [⟨1, some "hola", 1, some "hello", 2⟩], seq := 1 }
      (some { WordsList := [⟨1, none, 0, none, 0⟩], DeletedWords := [] })).1.words
      = [⟨1, some "hola", 1, some "hello", 2⟩] ∧
    ¬ (∀ w ∈ (filledwords { words := [⟨1, some "hola", 1, some "hello", 2⟩], seq := 1 }
        (some { WordsList := [⟨1, none, 0, none, 0⟩], DeletedWords := [] })).1.words,
        w.ID = 1 → w.TranslateWord = none) := by
  decide

/-- C7, amended: GORM's `Updates`, called with a struct, assigns only the non-zero
fields.  For an id `i` named by no deletion entry: the Words stored with id `i`
after `/filledwords` are those stored before, in the same places, with the same id,
text and source language, and (1) with the same translation when every update entry
for `i` has an absent translation, (2) with the same target language when every
update entry for `i` has a zero target language. -/
theorem C7_updates_skip_absent (db : DB) (payload : RequestPayload) (i : Nat)
    (hdel : ∀ d ∈ payload.DeletedWords, d.ID ≠ i) :
    List.Forall₂
      (fun w w' => w'.ID = w.ID ∧ w'.MainWord = w.MainWord ∧
        w'.BaseLanguageID = w.BaseLanguageID ∧
        ((∀ u ∈ payload.WordsList, u.ID = i → u.TranslateWord = none) →
          w'.TranslateWord = w.TranslateWord) ∧
        ((∀ u ∈ payload.WordsList, u.ID = i → u.LearningLanguageID = 0) →
          w'.LearningLanguageID = w.LearningLanguageID))
      (db.words.filter (fun w => decide (w.ID = i)))
      ((filledwords db (some payload)).1.words.filter (fun w => decide (w.ID = i))) := by
  rw [filledwords_words, List.filter_map, List.filter_filter]
  have hfilter : db.words.filter (fun a =>
        ((fun w => decide (w.ID = i)) ∘ applyUpdates payload.WordsList) a &&
          decide (∀ d ∈ payload.DeletedWords, d.ID ≠ a.ID))
      = db.words.filter (fun w => decide (w.ID = i)) := by
    apply List.filter_congr
    intro w _
    simp only [Function.comp, applyUpdates_ID]
    by_cases h : w.ID = i
    · subst h
      simp only [decide_True, Bool.true_and, decide_eq_true_eq]
      exact hdel
    · simp [h]
  rw [hfilter, List.forall₂_map_right_iff]
  apply List.forall₂_same.mpr
  intro w hw
  rw [List.mem_filter] at hw
  have hid : w.ID = i := of_decide_eq_true hw.2
  refine ⟨applyUpdates_ID _ _, applyUpdates_MainWord _ _, applyUpdates_Base _ _, ?_, ?_⟩
  · intro h
    exact applyUpdates_Translate_of_absent _ _ (fun u hu e => h u hu (by rw [e, hid]))
  · intro h
    exact applyUpdates_Learning_of_zero _ _ (fun u hu e => h u hu (by rw [e, hid]))

/-- Witness of C7 (amended): the table and batch of the counterexample. -/
theorem C7_updates_skip_absent_witness :
    List.Forall₂
      (fun w w' => w'.ID = w.ID ∧ w'.MainWord = w.MainWord ∧
        w'.BaseLanguageID = w.BaseLanguageID ∧
        ((∀ u ∈ [(⟨1, none, 0, none, 0⟩ : Word)], u.ID = 1 → u.TranslateWord = none) →
          w'.TranslateWord = w.TranslateWord) ∧
        ((∀ u ∈ [(⟨1, none, 0, none, 0⟩ : Word)], u.ID = 1 → u.LearningLanguageID = 0) →
          w'.LearningLanguageID = w.LearningLanguageID))
      ((DB.mk [⟨1, some "hola", 1, some "hello", 2⟩] 1).words.filter
        (fun w => decide (w.ID = 1)))
      ((filledwords (DB.mk [⟨1, some "hola", 1, some "hello", 2⟩] 1)
        (some { WordsList := [⟨1, none, 0, none, 0⟩], DeletedWords := [] })).1.words.filter
        (fun w => decide (w.ID = 1))) :=
  C7_updates_skip_absent (DB.mk [⟨1, some "hola", 1, some "hello", 2⟩] 1)
    { WordsList := [⟨1, none, 0, none, 0⟩], DeletedWords := [] } 1 (by decide)

theorem keys_hola : uniqueWords (Fields "hola mundo hola") = ["hola", "mundo"] := by decide

theorem order_hola (r : RangeOrder) :
    r.order ["hola", "mundo"] = ["hola", "mundo"] ∨
      r.order ["hola", "mundo"] = ["mundo", "hola"] :=
  perm_pair _ _ _ (r.perm _)

theorem one_lt_scanBound : 1 < scanBound := by decide

theorem two_lt_scanBound : 2 < scanBound := by decide

/-- C3, counterexample: on an empty table, "grande" is submitted twice under the
source language `2 ^ 63`.  The first call stores Word 1; in both calls the re-fetch
stops at the source language column, which does not read back, so the answer
carries 0 as source language and, as target language, what the scan buffers held:
1 in the first call, 0 in the second.  The two answers differ. -/
theorem C3_counterexample :
    (submit { words := [], seq := 0 } (some ⟨"grande", 9223372036854775808, 2⟩)
        RangeOrder.inserted RangeOrder.inserted (fun _ => ⟨0, none, 0, none, 1⟩)).1
      = { words := [⟨1, some "grande", 9223372036854775808, none, 2⟩], seq := 1 } ∧
    (submit { words := [], seq := 0 } (some ⟨"grande", 9223372036854775808, 2⟩)
        RangeOrder.inserted RangeOrder.inserted (fun _ => ⟨0, none, 0, none, 1⟩)).2
      = Response.partition [] [⟨1, some "grande", 0, none, 1⟩] ∧
    (submit { words := [⟨1, some "grande", 9223372036854775808, none, 2⟩], seq := 1 }
        (some ⟨"grande", 9223372036854775808, 2⟩)
        RangeOrder.inserted RangeOrder.inserted freshPool).2
      = Response.partition [] [⟨1, some "grande", 0, none, 0⟩] ∧
    ¬ (submit { words := [⟨1, some "grande", 9223372036854775808, none, 2⟩], seq := 1 }
        (some ⟨"grande", 9223372036854775808, 2⟩)
        RangeOrder.inserted RangeOrder.inserted freshPool).2.untranslated.Perm
      (submit { words := [], seq := 0 } (some ⟨"grande", 9223372036854775808, 2⟩)
        RangeOrder.inserted RangeOrder.inserted
        (fun _ => ⟨0, none, 0, none, 1⟩)).2.untranslated := by
  decide

/-- C3, amended (idempotence of submit): a second `/submit` of the same request, right
after the first, (1) leaves the table exactly as the first left it, so (2) the
number of stored Words with the request's source language does not change on the
second call and (3) did not decrease on the first; and, when the request's source
language is below `2 ^ 63`, (4, 5) it returns in each of its two lists the same
Words as the first, up to the order in which the map is iterated, and (6) the very
same lists when the re-fetch loop iterates in the same order, whatever the scan
buffers hold in either call. -/
theorem C3_submit_idempotent (db : DB) (req : Request) (r₁ r₂ r₃ r₄ : RangeOrder)
    (p₂ p₄ : String → Word) :
    (submit (submit db (some req) r₁ r₂ p₂).1 (some req) r₃ r₄ p₄).1
      = (submit db (some req) r₁ r₂ p₂).1 ∧
    ((submit (submit db (some req) r₁ r₂ p₂).1 (some req) r₃ r₄ p₄).1.words.filter
        (fun w => decide (w.BaseLanguageID = req.BaseLanguageID))).length
      = ((submit db (some req) r₁ r₂ p₂).1.words.filter
        (fun w => decide (w.BaseLanguageID = req.BaseLanguageID))).length ∧
    (db.words.filter (fun w => decide (w.BaseLanguageID = req.BaseLanguageID))).length
      ≤ ((submit db (some req) r₁ r₂ p₂).1.words.filter
        (fun w => decide (w.BaseLanguageID = req.BaseLanguageID))).length ∧
    (req.BaseLanguageID < scanBound →
      (submit (submit db (some req) r₁ r₂ p₂).1 (some req) r₃ r₄ p₄).2.translated.Perm
        (submit db (some req) r₁ r₂ p₂).2.translated ∧
      (submit (submit db (some req) r₁ r₂ p₂).1 (some req) r₃ r₄ p₄).2.untranslated.Perm
        (submit db (some req) r₁ r₂ p₂).2.untranslated ∧
      (submit (submit db (some req) r₁ r₂ p₂).1 (some req) r₃ r₂ p₄).2
        = (submit db (some req) r₁ r₂ p₂).2) := by
  have hperm : (r₄.order (uniqueWords (Fields req.Text))).Perm
      (r₂.order (uniqueWords (Fields req.Text))) := (r₄.perm _).trans (r₂.perm _).symm
  simp only [submit_eq, submit_twice_db, Response.translated, Response.untranslated]
  refine ⟨trivial, trivial, ?_, ?_⟩
  · exact ((foldl_saveWord_extends req _ db).sublist.filter _).length_le
  · intro hb
    have hpool : (fun t => DB.First ((r₁.order (uniqueWords (Fields req.Text))).foldl
          (saveWord req) db) (p₄ t) t req.BaseLanguageID)
        = (fun t => DB.First ((r₁.order (uniqueWords (Fields req.Text))).foldl
          (saveWord req) db) (p₂ t) t req.BaseLanguageID) := by
      funext t
      exact First_eq_of_base _ _ _ _ _ hb
    rw [hpool]
    exact ⟨(hperm.map _).filter _, (hperm.map _).filter _, rfl⟩

/-- Witness of C3 (amended): "hola mundo hola" under source language 1, twice, with
different iteration orders and different scan buffers. -/
theorem C3_submit_idempotent_witness :
    (1 : Nat) < scanBound ∧
    (submit (submit { words := [], seq := 0 } (some ⟨"hola mundo hola", 1, 2⟩)
        RangeOrder.inserted RangeOrder.inserted freshPool).1
        (some ⟨"hola mundo hola", 1, 2⟩) RangeOrder.reversed RangeOrder.reversed
        (fun _ => ⟨0, none, 0, some "x", 1⟩)).2.untranslated.Perm
      (submit { words := [], seq := 0 } (some ⟨"hola mundo hola", 1, 2⟩)
        RangeOrder.inserted RangeOrder.inserted freshPool).2.untranslated :=
  ⟨by decide,
   ((C3_submit_idempotent { words := [], seq := 0 } ⟨"hola mundo hola", 1, 2⟩
      RangeOrder.inserted RangeOrder.inserted RangeOrder.reversed RangeOrder.reversed
      freshPool (fun _ => ⟨0, none, 0, some "x", 1⟩)).2.2.2 (by decide)).2.1⟩

/-- C8, counterexample to the partition rule: on an empty table "casa" is submitted
under the source language `2 ^ 63` (Word 1 is stored), Word 1 is given the
translation "house", and "casa" is submitted again, the scan buffers being fresh
throughout.  The re-fetch stops at the source language column and never reads the
translation: Word 1 is returned in the untranslated list, without a translation,
although its stored translation is present. -/
theorem C8_counterexample :
    (submit { words := [], seq := 0 } (some ⟨"casa", 9223372036854775808, 2⟩)
        RangeOrder.inserted RangeOrder.inserted freshPool).1
      = { words := [⟨1, some "casa", 9223372036854775808, none, 2⟩], seq := 1 } ∧
    (filledwords { words := [⟨1, some "casa", 9223372036854775808, none, 2⟩], seq := 1 }
        (some { WordsList := [⟨1, none, 0, some "house", 0⟩], DeletedWords := [] })).1
      = { words := [⟨1, some "casa", 9223372036854775808, some "house", 2⟩], seq := 1 } ∧
    submit { words := [⟨1, some "casa", 9223372036854775808, some "house", 2⟩], seq := 1 }
        (some ⟨"casa", 9223372036854775808, 2⟩)
        RangeOrder.inserted RangeOrder.inserted freshPool
      = ({ words := [⟨1, some "casa", 9223372036854775808, some "house", 2⟩], seq := 1 },
         Response.partition [] [⟨1, some "casa", 0, none, 0⟩]) ∧
    ¬ (∀ w ∈ (submit
          { words := [⟨1, some "casa", 9223372036854775808, some "house", 2⟩], seq := 1 }
          (some ⟨"casa", 9223372036854775808, 2⟩)
          RangeOrder.inserted RangeOrder.inserted freshPool).2.untranslated,
        ∀ row ∈ (submit
          { words := [⟨1, some "casa", 9223372036854775808, some "house", 2⟩], seq := 1 }
          (some ⟨"casa", 9223372036854775808, 2⟩)
          RangeOrder.inserted RangeOrder.inserted freshPool).1.words,
        row.ID = w.ID → row.TranslateWord = none) := by
  decide

/-- C8, amended (end-to-end scenario and partition rule).  From an empty table,
whatever the row-id counter, the iteration orders and the scan buffers: the first
`/submit` of "hola mundo hola" (source 1, learning 2) stores exactly two Words,
"hola" with some id `ih` and "mundo" with another id `im`, both untranslated, and
returns an empty translated list and these two Words as untranslated; a
`/filledwords` with no deletion and one update entry carrying id `ih` and
translation "hello" is acknowledged; the next `/submit` of the same text creates
nothing, returns "hola" with translation "hello" as the only translated Word and
"mundo" as the only untranslated one (the target language of "hola" is the entry's
when that is not zero, read back as 0 from `2 ^ 63` on).  In general the two lists
hold one entry per distinct token, and for a request whose source language is below
`2 ^ 63` the partition follows the stored translation: every Word returned as
translated has the id, text, source language and translation of a stored Word whose
translation is present, and every Word returned as untranslated has no translation
and is either the zero Word or has the id, text and source language of a stored
Word whose translation is absent. -/
theorem C8_end_to_end (seq : Nat) (r₁ r₂ r₃ r₄ : RangeOrder) (p₂ p₄ : String → Word)
    (mw : Option String) (b l : Nat) :
    (∃ ih im : Nat, ih ≠ im ∧
      (submit ⟨[], seq⟩ (some ⟨"hola mundo hola", 1, 2⟩) r₁ r₂ p₂).1.words.Perm
        [⟨ih, some "hola", 1, none, 2⟩, ⟨im, some "mundo", 1, none, 2⟩] ∧
      (submit ⟨[], seq⟩ (some ⟨"hola mundo hola", 1, 2⟩) r₁ r₂ p₂).2.translated = [] ∧
      (submit ⟨[], seq⟩ (some ⟨"hola mundo hola", 1, 2⟩) r₁ r₂ p₂).2.untranslated.Perm
        [⟨ih, some "hola", 1, none, 2⟩, ⟨im, some "mundo", 1, none, 2⟩] ∧
      (filledwords (submit ⟨[], seq⟩ (some ⟨"hola mundo hola", 1, 2⟩) r₁ r₂ p₂).1
        (some { WordsList := [⟨ih, mw, b, some "hello", l⟩], DeletedWords := [] })).2
        = Response.success ∧
      (submit (filledwords (submit ⟨[], seq⟩ (some ⟨"hola mundo hola", 1, 2⟩) r₁ r₂ p₂).1
          (some { WordsList := [⟨ih, mw, b, some "hello", l⟩], DeletedWords := [] })).1
        (some ⟨"hola mundo hola", 1, 2⟩) r₃ r₄ p₄).1
        = (filledwords (submit ⟨[], seq⟩ (some ⟨"hola mundo hola", 1, 2⟩) r₁ r₂ p₂).1
          (some { WordsList := [⟨ih, mw, b, some "hello", l⟩], DeletedWords := [] })).1 ∧
      (submit (filledwords (submit ⟨[], seq⟩ (some ⟨"hola mundo hola", 1, 2⟩) r₁ r₂ p₂).1
          (some { WordsList := [⟨ih, mw, b, some "hello", l⟩], DeletedWords := [] })).1
        (some ⟨"hola mundo hola", 1, 2⟩) r₃ r₄ p₄).2
        = Response.partition
            [⟨ih, some "hola", 1, some "hello",
              if l = 0 then 2 else if l < scanBound then l else 0⟩]
            [⟨im, some "mundo", 1, none, 2⟩]) ∧
    (∀ (db : DB) (req : Request),
      (submit db (some req) r₁ r₂ p₂).2.translated.length
          + (submit db (some req) r₁ r₂ p₂).2.untranslated.length
        = (uniqueWords (Fields req.Text)).length ∧
      (req.BaseLanguageID < scanBound →
        (∀ w ∈ (submit db (some req) r₁ r₂ p₂).2.translated,
          ∃ row ∈ (submit db (some req) r₁ r₂ p₂).1.words,
            row.TranslateWord ≠ none ∧ w.ID = row.ID ∧ w.MainWord = row.MainWord ∧
            w.BaseLanguageID = row.BaseLanguageID ∧ w.TranslateWord = row.TranslateWord) ∧
        (∀ w ∈ (submit db (some req) r₁ r₂ p₂).2.untranslated,
          w.TranslateWord = none ∧
          (w = Word.zero ∨ ∃ row ∈ (submit db (some req) r₁ r₂ p₂).1.words,
            row.TranslateWord = none ∧ w.ID = row.ID ∧ w.MainWord = row.MainWord ∧
            w.BaseLanguageID = row.BaseLanguageID)))) := by
  have h1 := one_lt_scanBound
  have h2 := two_lt_scanBound
  constructor
  · rcases order_hola r₁ with h₁ | h₁
    · refine ⟨seq + 1, seq + 2, by omega, ?_, ?_, ?_, rfl, ?_, ?_⟩
      · simp [submit, keys_hola, h₁, saveWord, DB.Count, DB.whereWord, DB.Create, maxID]
      · rcases order_hola r₂ with h₂ | h₂ <;>
          simp [submit, keys_hola, h₁, h₂, saveWord, DB.Count, DB.whereWord, DB.Create, maxID,
            classifyWord, DB.First, leastID, Response.translated, scanRow, h1, h2]
      · rcases order_hola r₂ with h₂ | h₂
        · simp [submit, keys_hola, h₁, h₂, saveWord, DB.Count, DB.whereWord, DB.Create, maxID,
            classifyWord, DB.First, leastID, Response.untranslated, scanRow, h1, h2]
        · simp [submit, keys_hola, h₁, h₂, saveWord, DB.Count, DB.whereWord, DB.Create, maxID,
            classifyWord, DB.First, leastID, Response.untranslated, scanRow, h1, h2]
          exact List.Perm.swap _ _ _
      · rcases order_hola r₃ with h₃ | h₃ <;>
          simp [submit, keys_hola, h₁, h₃, saveWord, DB.Count, DB.whereWord, DB.Create, maxID,
            filledwords, DB.Updates, assignNonZero, Word.zero]
      · by_cases hl0 : l = 0
        · subst hl0
          rcases order_hola r₃ with h₃ | h₃ <;> rcases order_hola r₄ with h₄ | h₄ <;>
            simp [submit, keys_hola, h₁, h₃, h₄, saveWord, DB.Count, DB.whereWord, DB.Create,
              maxID, filledwords, DB.Updates, assignNonZero, Word.zero, classifyWord, DB.First,
              leastID, scanRow, h1, h2]
        · by_cases hl : l < scanBound
          · rcases order_hola r₃ with h₃ | h₃ <;> rcases order_hola r₄ with h₄ | h₄ <;>
              simp [submit, keys_hola, h₁, h₃, h₄, saveWord, DB.Count, DB.whereWord, DB.Create,
                maxID, filledwords, DB.Updates, assignNonZero, Word.zero, classifyWord,
                DB.First, leastID, scanRow, h1, h2, hl0, hl]
          · rcases order_hola r₃ with h₃ | h₃ <;> rcases order_hola r₄ with h₄ | h₄ <;>
              simp [submit, keys_hola, h₁, h₃, h₄, saveWord, DB.Count, DB.whereWord, DB.Create,
                maxID, filledwords, DB.Updates, assignNonZero, Word.zero, classifyWord,
                DB.First, leastID, scanRow, h1, h2, hl0, hl]
    · refine ⟨seq + 2, seq + 1, by omega, ?_, ?_, ?_, rfl, ?_, ?_⟩
      · simp [submit, keys_hola, h₁, saveWord, DB.Count, DB.whereWord, DB.Create, maxID]
        exact List.Perm.swap _ _ _
      · rcases order_hola r₂ with h₂ | h₂ <;>
          simp [submit, keys_hola, h₁, h₂, saveWord, DB.Count, DB.whereWord, DB.Create, maxID,
            classifyWord, DB.First, leastID, Response.translated, scanRow, h1, h2]
      · rcases order_hola r₂ with h₂ | h₂
        · simp [submit, keys_hola, h₁, h₂, saveWord, DB.Count, DB.whereWord, DB.Create, maxID,
            classifyWord, DB.First, leastID, Response.untranslated, scanRow, h1, h2]
        · simp [submit, keys_hola, h₁, h₂, saveWord, DB.Count, DB.whereWord, DB.Create, maxID,
            classifyWord, DB.First, leastID, Response.untranslated, scanRow, h1, h2]
          exact List.Perm.swap _ _ _
      · rcases order_hola r₃ with h₃ | h₃ <;>
          simp [submit, keys_hola, h₁, h₃, saveWord, DB.Count, DB.whereWord, DB.Create, maxID,
            filledwords, DB.Updates, assignNonZero, Word.zero]
      · by_cases hl0 : l = 0
        · subst hl0
          rcases order_hola r₃ with h₃ | h₃ <;> rcases order_hola r₄ with h₄ | h₄ <;>
            simp [submit, keys_hola, h₁, h₃, h₄, saveWord, DB.Count, DB.whereWord, DB.Create,
              maxID, filledwords, DB.Updates, assignNonZero, Word.zero, classifyWord, DB.First,
              leastID, scanRow, h1, h2]
        · by_cases hl : l < scanBound
          · rcases order_hola r₃ with h₃ | h₃ <;> rcases order_hola r₄ with h₄ | h₄ <;>
              simp [submit, keys_hola, h₁, h₃, h₄, saveWord, DB.Count, DB.whereWord, DB.Create,
                maxID, filledwords, DB.Updates, assignNonZero, Word.zero, classifyWord,
                DB.First, leastID, scanRow, h1, h2, hl0, hl]
          · rcases order_hola r₃ with h₃ | h₃ <;> rcases order_hola r₄ with h₄ | h₄ <;>
              simp [submit, keys_hola, h₁, h₃, h₄, saveWord, DB.Count, DB.whereWord, DB.Create,
                maxID, filledwords, DB.Updates, assignNonZero, Word.zero, classifyWord,
                DB.First, leastID, scanRow, h1, h2, hl0, hl]
  · intro db req
    simp only [submit_eq, Response.translated, Response.untranslated]
    refine ⟨?_, ?_⟩
    · have hcount := List.length_eq_length_filter_add
        (l := (r₂.order (uniqueWords (Fields req.Text))).map
              (fun t => DB.First ((r₁.order (uniqueWords (Fields req.Text))).foldl
                (saveWord req) db) (p₂ t) t req.BaseLanguageID))
        (fun w => decide (w.TranslateWord ≠ none))
      rw [List.length_map, (r₂.perm _).length_eq] at hcount
      rw [hcount]
      congr 2
      apply List.filter_congr
      intro w _
      simp
    · intro hb
      constructor
      · intro w hw
        rw [List.mem_filter, List.mem_map] at hw
        obtain ⟨⟨t, _, rfl⟩, hne⟩ := hw
        have hne := of_decide_eq_true hne
        rcases First_spec ((r₁.order (uniqueWords (Fields req.Text))).foldl (saveWord req) db)
          (p₂ t) t req.BaseLanguageID with ⟨row, hrow, _, hbase, hscan⟩ | h
        · have hs := scanRow_of_base (p₂ t) row (by rw [hbase]; exact hb)
          rw [hscan] at hne ⊢
          refine ⟨row, hrow, ?_, hs.1, hs.2.1, hs.2.2.1, hs.2.2.2.1⟩
          rw [← hs.2.2.2.1]
          exact hne
        · rw [h.1] at hne
          exact absurd rfl hne
      · intro w hw
        rw [List.mem_filter, List.mem_map] at hw
        obtain ⟨⟨t, _, rfl⟩, hnone⟩ := hw
        have hnone := of_decide_eq_true hnone
        refine ⟨hnone, ?_⟩
        rcases First_spec ((r₁.order (uniqueWords (Fields req.Text))).foldl (saveWord req) db)
          (p₂ t) t req.BaseLanguageID with ⟨row, hrow, _, hbase, hscan⟩ | h
        · right
          have hs := scanRow_of_base (p₂ t) row (by rw [hbase]; exact hb)
          rw [hscan] at hnone ⊢
          refine ⟨row, hrow, ?_, hs.1, hs.2.1, hs.2.2.1⟩
          rw [← hs.2.2.2.1]
          exact hnone
        · exact Or.inl h.1

/-- Witness of C8 (amended): the scenario with row-id counter 0, and the partition
rule at a table that holds "hola" translated, under source language 1. -/
theorem C8_end_to_end_witness :
    (1 : Nat) < scanBound ∧
    (∀ w ∈ (submit { words := [⟨1, some "hola", 1, some "hello", 2⟩], seq := 1 }
          (some ⟨"hola mundo", 1, 2⟩)
          RangeOrder.inserted RangeOrder.reversed freshPool).2.translated,
      ∃ row ∈ (submit { words := [⟨1, some "hola", 1, some "hello", 2⟩], seq := 1 }
          (some ⟨"hola mundo", 1, 2⟩)
          RangeOrder.inserted RangeOrder.reversed freshPool).1.words,
        row.TranslateWord ≠ none ∧ w.ID = row.ID ∧ w.MainWord = row.MainWord ∧
        w.BaseLanguageID = row.BaseLanguageID ∧ w.TranslateWord = row.TranslateWord) :=
  ⟨by decide,
   (((C8_end_to_end 0 RangeOrder.inserted RangeOrder.reversed RangeOrder.inserted
      RangeOrder.inserted freshPool freshPool none 0 0).2
      { words := [⟨1, some "hola", 1, some "hello", 2⟩], seq := 1 }
      ⟨"hola mundo", 1, 2⟩).2 (by decide)).1⟩

theorem keys_casa : uniqueWords (Fields "casa") = ["casa"] := by decide

theorem order_casa (r : RangeOrder) : r.order ["casa"] = ["casa"] :=
  List.perm_singleton.mp (r.perm _)

/-- C1, failing input: the table holds the Word "casa" under source language 2 (the
table a submit of "casa" under source language 2 leaves behind, starting from an
empty one) and the request submits "casa" under source language 1.  The insertion
is refused (`main_word` is unique on its own), the re-fetch finds no row, and the
handler answers with the zero Word in the untranslated list: no returned Word has
the text "casa" and source language 1, whatever the iteration orders and the scan
buffers. -/
theorem C1_code_at_failing_input (r₁ r₂ : RangeOrder) (pool : String → Word) :
    (submit { words := [], seq := 0 } (some ⟨"casa", 2, 1⟩) r₁ r₂ pool).1
      = { words := [⟨1, some "casa", 2, none, 1⟩], seq := 1 } ∧
    submit { words := [⟨1, some "casa", 2, none, 1⟩], seq := 1 } (some ⟨"casa", 1, 2⟩)
        r₁ r₂ pool
      = ({ words := [⟨1, some "casa", 2, none, 1⟩], seq := 1 },
         Response.partition [] [Word.zero]) ∧
    ¬ ∃ w ∈ (submit { words := [⟨1, some "casa", 2, none, 1⟩], seq := 1 }
              (some ⟨"casa", 1, 2⟩) r₁ r₂ pool).2.translated ++
            (submit { words := [⟨1, some "casa", 2, none, 1⟩], seq := 1 }
              (some ⟨"casa", 1, 2⟩) r₁ r₂ pool).2.untranslated,
        w.MainWord = some "casa" ∧ w.BaseLanguageID = 1 := by
  have h : submit { words := [⟨1, some "casa", 2, none, 1⟩], seq := 1 }
      (some ⟨"casa", 1, 2⟩) r₁ r₂ pool
      = ({ words := [⟨1, some "casa", 2, none, 1⟩], seq := 1 },
         Response.partition [] [Word.zero]) := by
    simp [submit, keys_casa, order_casa, saveWord, DB.Count, DB.whereWord, DB.Create,
      classifyWord, DB.First, leastID, Word.zero]
  refine ⟨?_, h, ?_⟩
  · simp [submit, keys_casa, order_casa, saveWord, DB.Count, DB.whereWord, DB.Create, maxID]
  · rw [h]
    simp [Response.translated, Response.untranslated, Word.zero]

/-- C2, failing input: from the table that holds "casa" under source language 2, two
submissions of "casa" under source language 1 leave the table as it was, with no
stored Word of text "casa" and source language 1 (not exactly one). -/
theorem C2_code_at_failing_input (r₁ r₂ r₃ r₄ : RangeOrder) (p₂ p₄ : String → Word) :
    (submit (submit { words := [⟨1, some "casa", 2, none, 1⟩], seq := 1 }
        (some ⟨"casa", 1, 2⟩) r₁ r₂ p₂).1 (some ⟨"casa", 1, 2⟩) r₃ r₄ p₄).1
      = { words := [⟨1, some "casa", 2, none, 1⟩], seq := 1 } ∧
    DB.stored (submit (submit { words := [⟨1, some "casa", 2, none, 1⟩], seq := 1 }
        (some ⟨"casa", 1, 2⟩) r₁ r₂ p₂).1 (some ⟨"casa", 1, 2⟩) r₃ r₄ p₄).1 "casa" 1 = [] := by
  have h : (submit (submit { words := [⟨1, some "casa", 2, none, 1⟩], seq := 1 }
        (some ⟨"casa", 1, 2⟩) r₁ r₂ p₂).1 (some ⟨"casa", 1, 2⟩) r₃ r₄ p₄).1
      = { words := [⟨1, some "casa", 2, none, 1⟩], seq := 1 } := by
    simp [submit, keys_casa, order_casa, saveWord, DB.Count, DB.whereWord, DB.Create]
  refine ⟨h, ?_⟩
  rw [h]
  decide

/-- C9, failing input: with "casa" stored under source language 2 only, the token
"casa" of a request under source language 1 has no stored Word with that text and
source language (the count is 0), yet the submit adds no Word for it. -/
theorem C9_code_at_failing_input (r₁ r₂ : RangeOrder) (pool : String → Word) :
    DB.Count { words := [⟨1, some "casa", 2, none, 1⟩], seq := 1 } "casa" 1 = 0 ∧
    "casa" ∈ uniqueWords (Fields "casa") ∧
    (submit { words := [⟨1, some "casa", 2, none, 1⟩], seq := 1 }
      (some ⟨"casa", 1, 2⟩) r₁ r₂ pool).1.words = [⟨1, some "casa", 2, none, 1⟩] := by
  refine ⟨by decide, by decide, ?_⟩
  simp [submit, keys_casa, order_casa, saveWord, DB.Count, DB.whereWord, DB.Create]

end LetterWeek
